import Mathlib

/-!
# Verification of `src/performance/amdahl_and_gunther.cpp`

Shallow embedding of the Amdahl/Gunther micro-benchmark harness.

Modelling conventions:
* C++ `double` values are modelled as exact rationals (`ℚ`); the spec's
  formulas are stated over exact arithmetic, and every claim under scrutiny
  concerns the mathematical value of the expressions, not IEEE rounding.
* C++ `uint64_t` is modelled as `ℕ` together with explicit `% 2 ^ 64`
  wraparound where the source arithmetic can wrap (`parallelIters`).
* C++ `int` is modelled as `ℤ`.
* Wall-clock time is an oracle `times : ℕ → ℚ` giving the elapsed seconds
  returned by the k-th Driver invocation (0-indexed).  The program itself is
  deterministic apart from these measured times.
-/

namespace AmdahlGunther

/-- Modulus of `uint64_t` arithmetic. -/
def U64 : ℕ := 2 ^ 64

/-- One step of the `busy_work` accumulator loop
(`acc += (i * 48271ULL) ^ (acc >> 3)`), in `uint64_t` arithmetic. -/
def busyStep (i acc : ℕ) : ℕ := (acc + (((i * 48271) % U64) ^^^ (acc >>> 3))) % U64

/-- `busy_work iters`: final accumulator value written to the sink after
`iters` iterations starting from `acc = 0` (source lines 10–16). -/
def busy_work (iters : ℕ) : ℕ :=
  (List.range iters).foldl (fun acc i => busyStep i acc) 0

/-- C++ floating-point-to-integer conversion: truncation toward zero. -/
def cppTruncToInt (q : ℚ) : ℤ := if 0 ≤ q then ⌊q⌋ else -⌊-q⌋

/-- `amdahl(s, N) = 1.0 / (s + (1.0 - s) / N)` (source lines 23–25). -/
def amdahl (s : ℚ) (N : ℤ) : ℚ := 1 / (s + (1 - s) / (N : ℚ))

/-- `gunther(alpha, beta, N) = N / (1 + alpha*(N-1) + beta*N*(N-1))`
(source lines 26–29). -/
def gunther (alpha beta : ℚ) (N : ℤ) : ℚ :=
  (N : ℚ) / (1 + alpha * ((N : ℚ) - 1) + beta * (N : ℚ) * ((N : ℚ) - 1))

/-- `serial_iters = static_cast<uint64_t>(total_iters * s)` (source line 65):
the double product truncated toward zero. -/
def serialIters (total : ℕ) (s : ℚ) : ℕ := (cppTruncToInt ((total : ℚ) * s)).toNat

/-- `parallel_iters = total_iters - serial_iters` (source line 66), an
unsigned 64-bit subtraction: wraps modulo `2^64` when `serial_iters`
exceeds `total_iters`. -/
def parallelIters (total : ℕ) (s : ℚ) : ℕ :=
  (((total : ℤ) - (serialIters total s : ℤ)) % (U64 : ℤ)).toNat

/-- `per = parallel_iters / N` (source line 83): unsigned integer (floor)
division of the parallel slice among the `N` workers. -/
def perWorker (total : ℕ) (s : ℚ) (N : ℤ) : ℕ :=
  parallelIters total s / N.toNat

/-- The work decomposition computed at the start of each `run_with(N)`
invocation (source lines 65–66 and 83). -/
structure DriverPlan where
  serial : ℕ
  parallel : ℕ
  per : ℕ
  deriving Repr, DecidableEq

/-- The decomposition performed by `run_with(N)`: `serial_iters` and
`parallel_iters` are computed from the captured `total_iters` and `s`
alone (source lines 65–66); only `per` depends on the argument `N`
(source line 83). -/
def runWithPlan (total : ℕ) (s : ℚ) (N : ℤ) : DriverPlan :=
  { serial := serialIters total s
    parallel := parallelIters total s
    per := perWorker total s N }

/-- The list of compute-iteration counts executed by the `N` workers when the
parallel slice holds `parallel` iterations: the loop at source lines 86–119
launches exactly `N` threads, each calling `busy_work(per, sink2)` with
`per = parallel / N`. -/
def workerIters (parallel N : ℕ) : List ℕ := List.replicate N (parallel / N)

/-- Default `lock_iters` when not supplied: `int(100 + 500*alpha)`
(source line 55). -/
def defaultLockIters (alpha : ℚ) : ℤ := cppTruncToInt (100 + 500 * alpha)

/-- Resolution of the `lock_iters` parameter from the command line
(source line 55): `argc > 8 ? atoi(argv[8]) : int(100 + 500*alpha)`. -/
def resolveLockIters (argc : ℕ) (argv8 : ℤ) (alpha : ℚ) : ℤ :=
  if 8 < argc then argv8 else defaultLockIters alpha

/-- One output row of the sweep (one line of the result table,
source lines 134–137). -/
structure ResultRecord where
  N : ℤ
  speedup_meas : ℚ
  speedup_amdahl : ℚ
  speedup_gunther : ℚ
  time_s : ℚ
  deriving Repr, DecidableEq

/-- Assemble one output row from the baseline time `t1`, this row's
time `tN`, and the thread count `N`. -/
def mkRecord (s alpha beta : ℚ) (t1 tN : ℚ) (N : ℤ) : ResultRecord :=
  { N := N
    speedup_meas := t1 / tN
    speedup_amdahl := amdahl s N
    speedup_gunther := gunther alpha beta N
    time_s := tN }

/-- The sweep loop of `main` (source lines 126–138): the baseline run is
Driver invocation 0 with time `times 0`; the loop row for thread count
`N = i + 1` reuses the baseline time when `i = 0` and otherwise performs
Driver invocation `i` (one fresh invocation per `N ∈ [2, maxN]`), then
emits one `ResultRecord`. -/
def sweep (s alpha beta : ℚ) (maxN : ℤ) (times : ℕ → ℚ) : List ResultRecord :=
  (List.range maxN.toNat).map fun (i : ℕ) =>
    let N : ℤ := (i : ℤ) + 1
    let tN : ℚ := if i = 0 then times 0 else times i
    mkRecord s alpha beta (times 0) tN N

/-- The ordered list of thread counts with which `run_with` is invoked during
one process run: the baseline `run_with(1)` (source line 126), then
`run_with(N)` for each `N` from 2 to `maxN` (the `N == 1` iteration of the
loop reuses `t1` instead of calling the Driver, source line 129). -/
def driverCalls (maxN : ℤ) : List ℤ :=
  1 :: (List.range (maxN.toNat - 1)).map fun (j : ℕ) => (j : ℤ) + 2

/-- Observable outcome of `main` after parameter resolution: the result rows,
the Driver invocations performed, and the process exit code (source line
139 returns 0 unconditionally). -/
def runMain (s alpha beta : ℚ) (maxN : ℤ) (times : ℕ → ℚ) :
    List ResultRecord × List ℤ × ℤ :=
  (sweep s alpha beta maxN times, driverCalls maxN, 0)

/-! ## Per-worker event trace (for the phase-ordering claim) -/

/-- Observable synchronization/memory events of one worker thread
(source lines 87–118). -/
inductive Event
  | compute (iters : ℕ)
  | barrier
  | hotInc
  | packedInc (idx : ℕ)
  | lockAcquire
  | lockRelease
  deriving Repr, DecidableEq

/-- Phase number of an event: 0 = compute, 1 = coherence, 2 = lock
contention. -/
def Event.phase : Event → ℕ
  | .compute _ => 0
  | .barrier => 1
  | .hotInc => 1
  | .packedInc _ => 1
  | .lockAcquire => 2
  | .lockRelease => 2

/-- Target counter selected by the `switch (k & 7)` statement
(source lines 100–109). -/
def packedIndex (k : ℕ) : ℕ := k &&& 7

/-- Events of one coherence round (source lines 93–111): barrier rendezvous,
then `coh_ops` increments of the hot counter, then `coh_ops` increments of
the packed counters selected by `packedIndex`. -/
def coherenceRoundTrace (ops : ℤ) : List Event :=
  Event.barrier ::
    (((List.range ops.toNat).map fun _ => Event.hotInc) ++
      ((List.range ops.toNat).map fun k => Event.packedInc (packedIndex k)))

/-- Full event trace of one worker (the lambda at source lines 87–118):
compute slice, then `coh_rounds` coherence rounds, then `lock_iters`
acquire/release pairs of the shared mutex with an empty critical
section. A non-positive loop bound runs the loop zero times, hence
`Int.toNat`. -/
def workerTrace (per : ℕ) (rounds ops lockIters : ℤ) : List Event :=
  Event.compute per ::
    (((List.range rounds.toNat).flatMap fun _ => coherenceRoundTrace ops) ++
      ((List.range lockIters.toNat).flatMap fun _ =>
        [Event.lockAcquire, Event.lockRelease]))

/-! ## Helper lemmas -/

/-- The `switch (k & 7)` dispatch is round-robin: the bit mask selects
`k mod 8`. -/
lemma packedIndex_eq_mod (k : ℕ) : packedIndex k = k % 8 := by
  have h := Nat.and_pow_two_sub_one_eq_mod k 3
  norm_num at h
  simpa [packedIndex] using h

lemma packedIndex_lt (k : ℕ) : packedIndex k < 8 := by
  rw [packedIndex_eq_mod]
  exact Nat.mod_lt _ (by norm_num)

/-- Counting occurrences in `n` concatenated copies of a block. -/
lemma count_flatMap_const {α : Type} [DecidableEq α] (L : List α) (x : α) (n : ℕ) :
    ((List.range n).flatMap fun _ => L).count x = n * L.count x := by
  induction n with
  | zero => simp
  | succ m ih =>
    rw [List.range_succ, List.flatMap_append, List.count_append, ih]
    simp [Nat.succ_mul]

/-- Case analysis on membership in one coherence round's trace. -/
lemma mem_coherenceRoundTrace {ops : ℤ} {e : Event}
    (he : e ∈ coherenceRoundTrace ops) :
    e = Event.barrier ∨ e = Event.hotInc ∨
      ∃ k < ops.toNat, e = Event.packedInc (packedIndex k) := by
  rw [coherenceRoundTrace] at he
  rcases List.mem_cons.mp he with h | h
  · exact Or.inl h
  rcases List.mem_append.mp h with h | h
  · obtain ⟨k, hk, hke⟩ := List.mem_map.mp h
    exact Or.inr (Or.inl hke.symm)
  · obtain ⟨k, hk, hke⟩ := List.mem_map.mp h
    exact Or.inr (Or.inr ⟨k, List.mem_range.mp hk, hke.symm⟩)

/-- Every event of a coherence round belongs to phase 1. -/
lemma phase_coherenceRoundTrace {ops : ℤ} (e : Event)
    (he : e ∈ coherenceRoundTrace ops) : e.phase = 1 := by
  rcases mem_coherenceRoundTrace he with h | h | ⟨k, _, h⟩ <;> subst h <;> rfl

end AmdahlGunther

namespace AmdahlGunther

/-! ## Theorems for the claims -/

/-- C4: for every serial fraction `s` and coefficients `alpha, beta` (in
particular for `s ∈ [0,1]` and `alpha, beta ≥ 0`), both theoretical
evaluators satisfy the boundary condition exactly: `amdahl(s, 1) = 1`
and `gunther(alpha, beta, 1) = 1`. -/
theorem amdahl_gunther_boundary (s alpha beta : ℚ) :
    amdahl s 1 = 1 ∧ gunther alpha beta 1 = 1 := by
  constructor
  · have h : s + (1 - s) / (((1 : ℤ) : ℚ)) = 1 := by push_cast; ring
    rw [amdahl, h]; norm_num
  · rw [gunther]; push_cast; norm_num

/-- C3: for every `parallel` iteration total and every thread count `N ≥ 1`,
the Driver launches exactly `N` workers, each executing exactly
`parallel / N` compute iterations (integer floor division); the executed
totals plus the leftover `parallel % N` make up `parallel` exactly, so the
`parallel % N < N` leftover iterations are executed by no worker. -/
theorem worker_division (parallel N : ℕ) (hN : 1 ≤ N) :
    (workerIters parallel N).length = N ∧
    (∀ w ∈ workerIters parallel N, w = parallel / N) ∧
    (workerIters parallel N).sum + parallel % N = parallel ∧
    parallel % N < N := by
  refine ⟨List.length_replicate _ _, fun w hw => List.eq_of_mem_replicate hw, ?_,
    Nat.mod_lt _ hN⟩
  have hsum : (workerIters parallel N).sum = N * (parallel / N) := by
    simp [workerIters, List.sum_replicate, smul_eq_mul]
  rw [hsum]
  exact Nat.div_add_mod parallel N

/-- Witness for C3 at `parallel = 10`, `N = 3`. -/
theorem worker_division_witness :
    1 ≤ 3 ∧
    ((workerIters 10 3).length = 3 ∧
      (∀ w ∈ workerIters 10 3, w = 10 / 3) ∧
      (workerIters 10 3).sum + 10 % 3 = 10 ∧
      10 % 3 < 3) :=
  ⟨by decide, worker_division 10 3 (by decide)⟩

/-- C8 counterexample: with `alpha = 0.0019` (and fewer than nine process
arguments), the code resolves `lock_iters` to `int(100 + 500*alpha) = 100`
by truncation, whereas `100 + 500*alpha = 100.95` rounded to the nearest
integer is `101`. -/
theorem lock_iters_default_not_rounded :
    resolveLockIters 1 0 (19 / 10000) = 100 ∧
    round ((100 : ℚ) + 500 * (19 / 10000)) = 101 ∧
    ¬ resolveLockIters 1 0 (19 / 10000) = round ((100 : ℚ) + 500 * (19 / 10000)) := by
  have h1 : resolveLockIters 1 0 (19 / 10000) = 100 := by
    rw [resolveLockIters, if_neg (by norm_num), defaultLockIters, cppTruncToInt,
      if_pos (by norm_num), Int.floor_eq_iff]
    norm_num
  have h2 : round ((100 : ℚ) + 500 * (19 / 10000)) = 101 := by
    rw [round_eq, Int.floor_eq_iff]
    norm_num
  exact ⟨h1, h2, by rw [h1, h2]; norm_num⟩

/-- C8 (amended): when fewer than nine process arguments are supplied and
`alpha ≥ 0`, the resolved default for `lock_iters` equals
`100 + 500*alpha` truncated toward zero, i.e. `⌊100 + 500*alpha⌋`. -/
theorem lock_iters_default_truncated (argc : ℕ) (argv8 : ℤ) (alpha : ℚ)
    (hargc : argc < 9) (ha : 0 ≤ alpha) :
    resolveLockIters argc argv8 alpha = ⌊(100 : ℚ) + 500 * alpha⌋ := by
  have h8 : ¬ 8 < argc := by omega
  have hq : (0 : ℚ) ≤ 100 + 500 * alpha := by positivity
  rw [resolveLockIters, if_neg h8, defaultLockIters, cppTruncToInt, if_pos hq]

/-- Witness for C8 (amended) at `argc = 1`, `alpha = 0.02` (the default
`alpha`, giving `lock_iters = 110`). -/
theorem lock_iters_default_truncated_witness :
    1 < 9 ∧ (0 : ℚ) ≤ 2 / 100 ∧
    resolveLockIters 1 0 (2 / 100) = ⌊(100 : ℚ) + 500 * (2 / 100)⌋ :=
  ⟨by decide, by norm_num, lock_iters_default_truncated 1 0 (2 / 100) (by decide) (by norm_num)⟩

/-- C2: for every `total_iters` and every `serial_fraction s ∈ [0,1]`
(the spec's domain for `s`), each Driver invocation computes
`serial_iters = ⌊total_iters * s⌋` and
`parallel_iters = total_iters - serial_iters`, so
`serial_iters + parallel_iters = total_iters` exactly, and the
decomposition is identical for every thread count `N`. -/
theorem serial_parallel_decomposition (total : ℕ) (s : ℚ) (N M : ℤ)
    (hs0 : 0 ≤ s) (hs1 : s ≤ 1) (htot : total < U64) :
    (runWithPlan total s N).serial = (⌊(total : ℚ) * s⌋).toNat ∧
    (runWithPlan total s N).parallel = total - (runWithPlan total s N).serial ∧
    (runWithPlan total s N).serial + (runWithPlan total s N).parallel = total ∧
    (runWithPlan total s N).serial = (runWithPlan total s M).serial ∧
    (runWithPlan total s N).parallel = (runWithPlan total s M).parallel := by
  have hq : (0 : ℚ) ≤ (total : ℚ) * s := mul_nonneg (by positivity) hs0
  have hserial : serialIters total s = (⌊(total : ℚ) * s⌋).toNat := by
    rw [serialIters, cppTruncToInt, if_pos hq]
  have hfl : ⌊(total : ℚ) * s⌋ ≤ (total : ℤ) := by
    have h1 : (total : ℚ) * s ≤ (total : ℚ) := mul_le_of_le_one_right (by positivity) hs1
    have h2 := Int.floor_le_floor h1
    simpa using h2
  have hserial_le : serialIters total s ≤ total := by rw [hserial]; omega
  have hU : ((U64 : ℕ) : ℤ) = ((2 : ℤ) ^ 64) := by norm_num [U64]
  have hpar : parallelIters total s = total - serialIters total s := by
    rw [parallelIters]
    have h0 : (0 : ℤ) ≤ (total : ℤ) - (serialIters total s : ℤ) := by omega
    have hlt : (total : ℤ) - (serialIters total s : ℤ) < ((U64 : ℕ) : ℤ) := by
      have htot' : (total : ℤ) < ((U64 : ℕ) : ℤ) := by exact_mod_cast htot
      omega
    rw [Int.emod_eq_of_lt h0 hlt]
    omega
  refine ⟨hserial, hpar, ?_, rfl, rfl⟩
  have hp : (runWithPlan total s N).parallel = parallelIters total s := rfl
  have hsr : (runWithPlan total s N).serial = serialIters total s := rfl
  rw [hsr, hp, hpar]
  omega

/-- Witness for C2 at `total = 100`, `s = 1/10`, `N = 4`, `M = 7`. -/
theorem serial_parallel_decomposition_witness :
    (0 : ℚ) ≤ 1 / 10 ∧ (1 : ℚ) / 10 ≤ 1 ∧ 100 < U64 ∧
    ((runWithPlan 100 (1 / 10) 4).serial = (⌊(100 : ℚ) * (1 / 10)⌋).toNat ∧
      (runWithPlan 100 (1 / 10) 4).parallel
        = 100 - (runWithPlan 100 (1 / 10) 4).serial ∧
      (runWithPlan 100 (1 / 10) 4).serial + (runWithPlan 100 (1 / 10) 4).parallel = 100 ∧
      (runWithPlan 100 (1 / 10) 4).serial = (runWithPlan 100 (1 / 10) 7).serial ∧
      (runWithPlan 100 (1 / 10) 4).parallel = (runWithPlan 100 (1 / 10) 7).parallel) :=
  ⟨by norm_num, by norm_num, by norm_num [U64],
    serial_parallel_decomposition 100 (1 / 10) 4 7 (by norm_num) (by norm_num)
      (by norm_num [U64])⟩

/-- C9: when `serial_fraction > 1` makes the computed `serial_iters` exceed
`total_iters`, the unsigned subtraction `total_iters - serial_iters` wraps
modulo `2^64` to `2^64 + total_iters - serial_iters`, a value larger than
`total_iters`, while `serial_iters + parallel_iters ≡ total_iters`
(mod `2^64`) still holds. -/
theorem parallel_iters_wraparound (total : ℕ) (s : ℚ)
    (hs : 1 < s) (htot : total < U64)
    (hser : total < serialIters total s) (hser64 : serialIters total s < U64) :
    parallelIters total s = U64 + total - serialIters total s ∧
    total < parallelIters total s ∧
    (serialIters total s + parallelIters total s) % U64 = total % U64 ∧
    total % U64 = total := by
  have hU : ((U64 : ℕ) : ℤ) = ((2 : ℤ) ^ 64) := by norm_num [U64]
  have hUpos : 0 < U64 := by norm_num [U64]
  have h1 : parallelIters total s = U64 + total - serialIters total s := by
    rw [parallelIters]
    have hstep : ((total : ℤ) - (serialIters total s : ℤ)) % ((U64 : ℕ) : ℤ)
        = ((total : ℤ) - (serialIters total s : ℤ) + ((U64 : ℕ) : ℤ) * 1)
            % ((U64 : ℕ) : ℤ) := by
      rw [Int.add_mul_emod_self_left]
    rw [hstep, Int.emod_eq_of_lt (by omega) (by omega)]
    omega
  refine ⟨h1, by omega, ?_, Nat.mod_eq_of_lt htot⟩
  have h2 : serialIters total s + parallelIters total s = U64 + total := by omega
  rw [h2, Nat.add_mod_left]

/-- Witness for C9 at `total = 10`, `s = 2` (so `serial_iters = 20`). -/
theorem parallel_iters_wraparound_witness :
    (1 : ℚ) < 2 ∧ 10 < U64 ∧ 10 < serialIters 10 2 ∧ serialIters 10 2 < U64 ∧
    (parallelIters 10 2 = U64 + 10 - serialIters 10 2 ∧
      10 < parallelIters 10 2 ∧
      (serialIters 10 2 + parallelIters 10 2) % U64 = 10 % U64 ∧
      10 % U64 = 10) := by
  have h20 : serialIters 10 2 = 20 := by
    rw [serialIters, cppTruncToInt, if_pos (by norm_num)]
    have h : ((10 : ℕ) : ℚ) * 2 = ((20 : ℤ) : ℚ) := by norm_num
    rw [h, Int.floor_intCast]
    rfl
  refine ⟨by norm_num, by norm_num [U64], by rw [h20]; norm_num,
    by rw [h20]; norm_num [U64],
    parallel_iters_wraparound 10 2 (by norm_num) (by norm_num [U64])
      (by rw [h20]; norm_num) (by rw [h20]; norm_num [U64])⟩

/-- C6: for every fixed `s ∈ [0,1]` and `N ≥ 1`, `amdahl s` is
non-decreasing in `N`, and it is bounded above by `1/s`: in product form
`s * amdahl s N ≤ 1` (meaningful even at `s = 0`, where the bound `1/s`
is infinite), and in quotient form `amdahl s N ≤ 1/s` whenever
`0 < s`. -/
theorem amdahl_monotone_and_bounded (s : ℚ) (N : ℤ)
    (hs0 : 0 ≤ s) (hs1 : s ≤ 1) (hN : 1 ≤ N) :
    amdahl s N ≤ amdahl s (N + 1) ∧
    s * amdahl s N ≤ 1 ∧
    (0 < s → amdahl s N ≤ 1 / s) := by
  have h1s : (0 : ℚ) ≤ 1 - s := by linarith
  have hd_pos : ∀ M : ℤ, 1 ≤ M → 0 < s + (1 - s) / (M : ℚ) := by
    intro M hM
    have hM0 : (0 : ℚ) < (M : ℚ) := by exact_mod_cast (by omega : (0 : ℤ) < M)
    rcases eq_or_lt_of_le hs0 with h | h
    · rw [← h]
      simp only [sub_zero, zero_add]
      positivity
    · have : (0 : ℚ) ≤ (1 - s) / (M : ℚ) := div_nonneg h1s hM0.le
      linarith
  have hN0 : (0 : ℚ) < (N : ℚ) := by exact_mod_cast (by omega : (0 : ℤ) < N)
  have hs_le_d : s ≤ s + (1 - s) / (N : ℚ) := by
    have : (0 : ℚ) ≤ (1 - s) / (N : ℚ) := div_nonneg h1s hN0.le
    linarith
  refine ⟨?_, ?_, ?_⟩
  · rw [amdahl, amdahl]
    have hcast : (((N + 1 : ℤ)) : ℚ) = (N : ℚ) + 1 := by push_cast; ring
    rw [hcast]
    have hdle : s + (1 - s) / ((N : ℚ) + 1) ≤ s + (1 - s) / (N : ℚ) := by
      have : (1 - s) / ((N : ℚ) + 1) ≤ (1 - s) / (N : ℚ) := by
        apply div_le_div_of_nonneg_left h1s hN0
        linarith
      linarith
    have hpos1 : 0 < s + (1 - s) / ((N : ℚ) + 1) := by
      have := hd_pos (N + 1) (by omega)
      rwa [hcast] at this
    exact one_div_le_one_div_of_le hpos1 hdle
  · rw [amdahl, mul_one_div, div_le_one (hd_pos N hN)]
    exact hs_le_d
  · intro hs
    rw [amdahl]
    exact one_div_le_one_div_of_le hs hs_le_d

/-- Witness for C6 at `s = 1/2`, `N = 2`. -/
theorem amdahl_monotone_and_bounded_witness :
    (0 : ℚ) ≤ 1 / 2 ∧ (1 : ℚ) / 2 ≤ 1 ∧ (1 : ℤ) ≤ 2 ∧
    (amdahl (1 / 2) 2 ≤ amdahl (1 / 2) (2 + 1) ∧
      (1 / 2 : ℚ) * amdahl (1 / 2) 2 ≤ 1 ∧
      ((0 : ℚ) < 1 / 2 → amdahl (1 / 2) 2 ≤ 1 / (1 / 2))) :=
  ⟨by norm_num, by norm_num, by decide,
    amdahl_monotone_and_bounded (1 / 2) 2 (by norm_num) (by norm_num) (by decide)⟩

/-- C1: with `max_threads ≥ 1` and a nonzero baseline time, the Sweep
Controller emits one `ResultRecord` per `N = 1 .. max_threads` in strictly
increasing order (row `i` carries `N = i + 1`), each with
`measured_speedup = T1 / T_N`; the `N = 1` row reuses the cached baseline
(its time is Driver invocation 0's time and its speedup is exactly 1), the
Driver is invoked exactly once with `N = 1`, and the total number of
Driver invocations is `max_threads`; with `max_threads = 1` the output is
exactly one record with `measured_speedup = 1`. -/
theorem sweep_controller_rows (s alpha beta : ℚ) (maxN : ℤ) (times : ℕ → ℚ)
    (hmax : 1 ≤ maxN) (ht : times 0 ≠ 0) :
    (sweep s alpha beta maxN times).length = maxN.toNat ∧
    (∀ i : ℕ, ∀ hi : i < (sweep s alpha beta maxN times).length,
      ((sweep s alpha beta maxN times).get ⟨i, hi⟩).N = (i : ℤ) + 1 ∧
      ((sweep s alpha beta maxN times).get ⟨i, hi⟩).time_s
        = (if i = 0 then times 0 else times i) ∧
      ((sweep s alpha beta maxN times).get ⟨i, hi⟩).speedup_meas
        = times 0 / (if i = 0 then times 0 else times i) ∧
      (i = 0 → ((sweep s alpha beta maxN times).get ⟨i, hi⟩).speedup_meas = 1)) ∧
    (driverCalls maxN).count 1 = 1 ∧
    (driverCalls maxN).length = maxN.toNat ∧
    (maxN = 1 → ∃ r : ResultRecord,
      sweep s alpha beta maxN times = [r] ∧ r.speedup_meas = 1) := by
  refine ⟨by simp [sweep], ?_, ?_, ?_, ?_⟩
  · intro i hi
    refine ⟨by simp [sweep, mkRecord, List.get_eq_getElem],
      by simp [sweep, mkRecord, List.get_eq_getElem],
      by simp [sweep, mkRecord, List.get_eq_getElem], ?_⟩
    intro h0
    subst h0
    simp [sweep, mkRecord, List.get_eq_getElem, div_self ht]
  · have h0 : ((List.range (maxN.toNat - 1)).map fun (j : ℕ) => (j : ℤ) + 2).count 1
        = 0 := by
      rw [List.count_eq_zero]
      intro h
      obtain ⟨j, hj, hje⟩ := List.mem_map.mp h
      have hje' : (j : ℤ) + 2 = 1 := hje
      omega
    rw [driverCalls, List.count_cons, h0]
    norm_num
  · rw [driverCalls]
    simp only [List.length_cons, List.length_map, List.length_range]
    omega
  · intro h1
    subst h1
    refine ⟨mkRecord s alpha beta (times 0) (times 0) 1, ?_, ?_⟩
    · rw [sweep]
      rfl
    · simp [mkRecord, div_self ht]

/-- Witness for C1 at `maxN = 2` with time oracle `times k = k + 1`. -/
theorem sweep_controller_rows_witness :
    (1 : ℤ) ≤ 2 ∧ (fun (k : ℕ) => ((k : ℚ) + 1)) 0 ≠ 0 ∧
    ((sweep 0 0 0 2 (fun (k : ℕ) => ((k : ℚ) + 1))).length = (2 : ℤ).toNat ∧
      (∀ i : ℕ, ∀ hi : i < (sweep 0 0 0 2 (fun (k : ℕ) => ((k : ℚ) + 1))).length,
        ((sweep 0 0 0 2 (fun (k : ℕ) => ((k : ℚ) + 1))).get ⟨i, hi⟩).N = (i : ℤ) + 1 ∧
        ((sweep 0 0 0 2 (fun (k : ℕ) => ((k : ℚ) + 1))).get ⟨i, hi⟩).time_s
          = (if i = 0 then (fun (k : ℕ) => ((k : ℚ) + 1)) 0
             else (fun (k : ℕ) => ((k : ℚ) + 1)) i) ∧
        ((sweep 0 0 0 2 (fun (k : ℕ) => ((k : ℚ) + 1))).get ⟨i, hi⟩).speedup_meas
          = (fun (k : ℕ) => ((k : ℚ) + 1)) 0 /
              (if i = 0 then (fun (k : ℕ) => ((k : ℚ) + 1)) 0
               else (fun (k : ℕ) => ((k : ℚ) + 1)) i) ∧
        (i = 0 →
          ((sweep 0 0 0 2 (fun (k : ℕ) => ((k : ℚ) + 1))).get ⟨i, hi⟩).speedup_meas
            = 1)) ∧
      (driverCalls 2).count 1 = 1 ∧
      (driverCalls 2).length = (2 : ℤ).toNat ∧
      ((2 : ℤ) = 1 → ∃ r : ResultRecord,
        sweep 0 0 0 2 (fun (k : ℕ) => ((k : ℚ) + 1)) = [r] ∧ r.speedup_meas = 1)) :=
  ⟨by decide, by norm_num,
    sweep_controller_rows 0 0 0 2 (fun (k : ℕ) => ((k : ℚ) + 1)) (by decide)
      (by norm_num)⟩

/-- C5: `gunther(0, 0, N) = N` for every `N` (in particular every `N ≥ 1`),
and in the end-to-end scenario `s = 0`, `alpha = 0`, `beta = 0`,
`max_threads = 4`, the result table has exactly 4 rows with `N = 1..4`
whose `amdahl` and `gunther` columns equal `1, 2, 3, 4` exactly
(hence within tolerance `1e-9`), for every time oracle, i.e. independent
of the measured wall-clock values. -/
theorem gunther_linear_scaling (N : ℤ) (times : ℕ → ℚ) :
    gunther 0 0 N = (N : ℚ) ∧
    (sweep 0 0 0 4 times).length = 4 ∧
    (sweep 0 0 0 4 times).map ResultRecord.N = [1, 2, 3, 4] ∧
    (sweep 0 0 0 4 times).map ResultRecord.speedup_amdahl = [1, 2, 3, 4] ∧
    (sweep 0 0 0 4 times).map ResultRecord.speedup_gunther = [1, 2, 3, 4] := by
  refine ⟨by rw [gunther]; norm_num, by simp [sweep], ?_, ?_, ?_⟩
  · simp [sweep, mkRecord, List.range_succ]
  · simp [sweep, mkRecord, List.range_succ, amdahl]
    norm_num
  · simp [sweep, mkRecord, List.range_succ, gunther]
    norm_num

/-- C7: within one worker the three phases run strictly in order
(compute, then coherence, then lock contention): the trace is exactly the
compute slice followed by `coherence_rounds` rounds — each a barrier
rendezvous, then `coherence_ops` hot-counter increments, then
`coherence_ops` packed-counter increments targeting counter
`op_index mod 8` — followed by `lock_iters` acquire/release pairs with
nothing between acquire and release; phases are monotone along the trace,
every packed target is one of the 8 same-line counters, and the event
counts match the parameters. -/
theorem worker_phase_order (per : ℕ) (rounds ops lockIters : ℤ) :
    workerTrace per rounds ops lockIters
      = Event.compute per ::
          (((List.range rounds.toNat).flatMap fun _ =>
            Event.barrier ::
              (((List.range ops.toNat).map fun _ => Event.hotInc) ++
                ((List.range ops.toNat).map fun k => Event.packedInc (k % 8)))) ++
            ((List.range lockIters.toNat).flatMap fun _ =>
              [Event.lockAcquire, Event.lockRelease])) ∧
    List.Pairwise (fun a b => Event.phase a ≤ Event.phase b)
      (workerTrace per rounds ops lockIters) ∧
    (∀ e ∈ workerTrace per rounds ops lockIters,
      ∀ i, e = Event.packedInc i → i < 8) ∧
    (workerTrace per rounds ops lockIters).count Event.barrier = rounds.toNat ∧
    (workerTrace per rounds ops lockIters).count Event.hotInc
      = rounds.toNat * ops.toNat ∧
    (workerTrace per rounds ops lockIters).count Event.lockAcquire
      = lockIters.toNat ∧
    (workerTrace per rounds ops lockIters).count Event.lockRelease
      = lockIters.toNat := by
  have hcoh : ∀ e ∈ (List.range rounds.toNat).flatMap fun _ => coherenceRoundTrace ops,
      Event.phase e = 1 := by
    intro e he
    obtain ⟨a, _, hmem⟩ := List.mem_flatMap.mp he
    exact phase_coherenceRoundTrace e hmem
  have hlock : ∀ e ∈ (List.range lockIters.toNat).flatMap fun _ =>
      [Event.lockAcquire, Event.lockRelease], Event.phase e = 2 := by
    intro e he
    obtain ⟨a, _, hmem⟩ := List.mem_flatMap.mp he
    rcases List.mem_cons.mp hmem with h | h
    · subst h; rfl
    · rcases List.mem_cons.mp h with h | h
      · subst h; rfl
      · exact absurd h (List.not_mem_nil e)
  refine ⟨by simp only [workerTrace, coherenceRoundTrace, packedIndex_eq_mod],
    ?_, ?_, ?_⟩
  · rw [workerTrace]
    refine List.Pairwise.cons ?_ ?_
    · intro e he
      simp only [Event.phase]
      exact Nat.zero_le _
    · rw [List.pairwise_append]
      refine ⟨List.pairwise_of_forall_mem_list ?_,
        List.pairwise_of_forall_mem_list ?_, ?_⟩
      · intro a ha b hb
        rw [hcoh a ha, hcoh b hb]
      · intro a ha b hb
        rw [hlock a ha, hlock b hb]
      · intro a ha b hb
        rw [hcoh a ha, hlock b hb]
        norm_num
  · intro e he i hei
    subst hei
    rw [workerTrace] at he
    rcases List.mem_cons.mp he with h | h
    · exact absurd h (by simp)
    rcases List.mem_append.mp h with h | h
    · obtain ⟨a, _, hmem⟩ := List.mem_flatMap.mp h
      rcases mem_coherenceRoundTrace hmem with h' | h' | ⟨k, _, h'⟩
      · exact absurd h' (by simp)
      · exact absurd h' (by simp)
      · rw [show i = packedIndex k from Event.packedInc.inj h']
        exact packedIndex_lt k
    · obtain ⟨a, _, hmem⟩ := List.mem_flatMap.mp h
      rcases List.mem_cons.mp hmem with h' | h'
      · exact absurd h' (by simp)
      · rcases List.mem_cons.mp h' with h'' | h''
        · exact absurd h'' (by simp)
        · exact absurd h'' (List.not_mem_nil _)
  · have hbar : (coherenceRoundTrace ops).count Event.barrier = 1 := by
      rw [coherenceRoundTrace, List.count_cons]
      simp [List.count_eq_zero, List.map_const']
    have hhot : (coherenceRoundTrace ops).count Event.hotInc = ops.toNat := by
      rw [coherenceRoundTrace, List.count_cons, List.count_append]
      have h1 : ((List.range ops.toNat).map fun _ => Event.hotInc).count Event.hotInc
          = ops.toNat := by
        rw [List.map_const']
        simp [List.count_replicate]
      have h2 : ((List.range ops.toNat).map fun k =>
          Event.packedInc (packedIndex k)).count Event.hotInc = 0 := by
        rw [List.count_eq_zero]
        intro h
        obtain ⟨k, _, hke⟩ := List.mem_map.mp h
        exact absurd hke (by simp)
      rw [h1, h2]
      simp
    have hlockA : (coherenceRoundTrace ops).count Event.lockAcquire = 0 := by
      rw [List.count_eq_zero]
      intro h
      have := phase_coherenceRoundTrace _ h
      simp [Event.phase] at this
    have hlockR : (coherenceRoundTrace ops).count Event.lockRelease = 0 := by
      rw [List.count_eq_zero]
      intro h
      have := phase_coherenceRoundTrace _ h
      simp [Event.phase] at this
    rw [workerTrace]
    refine ⟨?_, ?_, ?_, ?_⟩ <;>
      rw [List.count_cons, List.count_append, count_flatMap_const,
        count_flatMap_const]
    · rw [hbar]; simp
    · rw [hhot]; simp
    · rw [hlockA]; simp
    · rw [hlockR]; simp

/-- C10: when `max_threads < 1`, the sweep loop emits zero result rows, yet
the baseline Driver invocation with `N = 1` still executes (the call list
is exactly `[1]`), and the process exits with status 0. -/
theorem max_threads_below_one (s alpha beta : ℚ) (maxN : ℤ) (times : ℕ → ℚ)
    (hmax : maxN < 1) :
    (runMain s alpha beta maxN times).1 = [] ∧
    (runMain s alpha beta maxN times).2.1 = [1] ∧
    (runMain s alpha beta maxN times).2.2 = 0 := by
  have h0 : maxN.toNat = 0 := by omega
  refine ⟨?_, ?_, rfl⟩
  · simp [runMain, sweep, h0]
  · simp [runMain, driverCalls, h0]

/-- Witness for C10 at `maxN = 0` with a constant time oracle. -/
theorem max_threads_below_one_witness :
    (0 : ℤ) < 1 ∧
    ((runMain 0 0 0 0 (fun _ => 1)).1 = [] ∧
      (runMain 0 0 0 0 (fun _ => 1)).2.1 = [1] ∧
      (runMain 0 0 0 0 (fun _ => 1)).2.2 = 0) :=
  ⟨by decide, max_threads_below_one 0 0 0 0 (fun _ => 1) (by decide)⟩

end AmdahlGunther
